import Mathlib

/-!
A shallow embedding of the cron field-expansion engine found in the
JavaScript source file of this repository.  Strings are modelled as
lists of characters; the JavaScript primitives used by the source
(parseInt with radix 10, String.prototype.split on a one-character
separator, String.prototype.trim, the global regex replacement of
three-letter alphabetic substrings, Set-based deduplication and the
ascending numeric sort) are each given an explicit executable model.
All numeric values are Int, matching the fact that every number the
source manipulates is an integer produced by parseInt or a constant.
-/

namespace Cron

/-- JavaScript whitespace test used by trim and by parseInt:
space, tab, line feed, carriage return, vertical tab, form feed. -/
def isWSChar (c : Char) : Bool :=
  c == ' ' || c == '\t' || c == '\n' || c == '\r' || c == '\x0b' || c == '\x0c'

/-- ASCII decimal-digit test, the character class parseInt consumes. -/
def isDigitChar (c : Char) : Bool :=
  48 ≤ c.toNat && c.toNat ≤ 57

/-- ASCII alphabetic test, the regex character class of the name
replacement in the source. -/
def isAlphaCh (c : Char) : Bool :=
  (65 ≤ c.toNat && c.toNat ≤ 90) || (97 ≤ c.toNat && c.toNat ≤ 122)

/-- ASCII lower-casing, the effect of toLowerCase on the three-letter
alphabetic matches fed to it. -/
def toLow (c : Char) : Char :=
  if 65 ≤ c.toNat && c.toNat ≤ 90 then Char.ofNat (c.toNat + 32) else c

/-- Numeric value of an ASCII digit character. -/
def digitVal (c : Char) : Nat := c.toNat - 48

/-- Value of a list of ASCII digit characters read in base 10. -/
def digitsVal (ds : List Char) : Nat :=
  List.foldl (fun acc c => 10 * acc + digitVal c) 0 ds

/-- Decimal rendering of a natural number, fuelled so that it reduces
by kernel evaluation; the fuel bound n+1 always suffices because every
recursive call divides the argument by ten. -/
def natCharsAux : Nat → Nat → List Char
  | 0, _ => []
  | fuel+1, n =>
    if n < 10 then [Nat.digitChar n]
    else natCharsAux fuel (n / 10) ++ [Nat.digitChar (n % 10)]

/-- Decimal rendering of a natural number (the model of the String
conversion applied to a table value in the name replacement, and the
decimal notation used to build concrete test tokens). -/
def natChars (n : Nat) : List Char := natCharsAux (n + 1) n

/-- The longest leading run of decimal digits, or none if there is no
leading digit at all. -/
def readDigits (l : List Char) : Option Nat :=
  let ds := l.takeWhile isDigitChar
  if ds = [] then none else some (digitsVal ds)

/-- Model of JavaScript parseInt with radix 10: skip leading
whitespace, read an optional sign, then the longest run of decimal
digits; NaN (here none) when no digit follows; every trailing
character after the digits is ignored. -/
def jsParseInt (l : List Char) : Option Int :=
  match l.dropWhile isWSChar with
  | [] => none
  | c :: rest =>
    if c = '-' then (readDigits rest).map (fun n => -(n : Int))
    else if c = '+' then (readDigits rest).map (fun n => (n : Int))
    else (readDigits (c :: rest)).map (fun n => (n : Int))

/-- Model of String.prototype.split with a one-character separator:
always returns at least one piece, keeps empty pieces. -/
def splitOnChar (sep : Char) : List Char → List (List Char)
  | [] => [[]]
  | c :: rest =>
    if c = sep then [] :: splitOnChar sep rest
    else
      match splitOnChar sep rest with
      | r :: rs => (c :: r) :: rs
      | [] => [[c]]

/-- Model of String.prototype.trim: drop whitespace at both ends. -/
def trimChars (l : List Char) : List Char :=
  ((l.dropWhile isWSChar).reverse.dropWhile isWSChar).reverse

/-- Model of String.prototype.includes for a one-character needle. -/
def hasChar (c : Char) : List Char → Bool
  | [] => false
  | x :: xs => x == c || hasChar c xs

/-- One entry of the FIELD_DEFS table of the source. -/
structure FieldDef where
  name : String
  min : Int
  max : Int
deriving Repr, DecidableEq

/-- The five field definitions, in positional order, as in the source. -/
def FIELD_DEFS : List FieldDef :=
  [⟨"minute", 0, 59⟩,
   ⟨"hour", 0, 23⟩,
   ⟨"day of month", 1, 31⟩,
   ⟨"month", 1, 12⟩,
   ⟨"day of week", 0, 6⟩]

/-- Positional lookup into FIELD_DEFS.  The source indexes the array
directly; every call site uses an index below five, so the default
value is never produced. -/
def fieldDef (i : Nat) : FieldDef := FIELD_DEFS.getD i ⟨"", 0, 0⟩

/-- The MONTH_NAMES object of the source, as a lookup on the
three-character (already lower-cased) key. -/
def MONTH_NAMES : List Char → Option Nat
  | ['j', 'a', 'n'] => some 1
  | ['f', 'e', 'b'] => some 2
  | ['m', 'a', 'r'] => some 3
  | ['a', 'p', 'r'] => some 4
  | ['m', 'a', 'y'] => some 5
  | ['j', 'u', 'n'] => some 6
  | ['j', 'u', 'l'] => some 7
  | ['a', 'u', 'g'] => some 8
  | ['s', 'e', 'p'] => some 9
  | ['o', 'c', 't'] => some 10
  | ['n', 'o', 'v'] => some 11
  | ['d', 'e', 'c'] => some 12
  | _ => none

/-- The DOW_NAMES object of the source. -/
def DOW_NAMES : List Char → Option Nat
  | ['s', 'u', 'n'] => some 0
  | ['m', 'o', 'n'] => some 1
  | ['t', 'u', 'e'] => some 2
  | ['w', 'e', 'd'] => some 3
  | ['t', 'h', 'u'] => some 4
  | ['f', 'r', 'i'] => some 5
  | ['s', 'a', 't'] => some 6
  | _ => none

/-- The nameMap selection of replaceNames in the source: the month
table at index 3, the weekday table at index 4, nothing otherwise. -/
def nameMapFor (fieldIndex : Nat) : Option (List Char → Option Nat) :=
  if fieldIndex = 3 then some MONTH_NAMES
  else if fieldIndex = 4 then some DOW_NAMES
  else none

/-- The global regex replacement of the source: scan left to right;
at each position, three consecutive alphabetic characters form a
match, which is replaced through the table (matches whose lower-cased
text is not a key are kept verbatim) and the scan resumes after the
match; a position that starts no match is copied and the scan advances
one character. -/
def replaceNames3 (nm : List Char → Option Nat) : List Char → List Char
  | c1 :: c2 :: c3 :: rest =>
    if isAlphaCh c1 && isAlphaCh c2 && isAlphaCh c3 then
      (match nm [toLow c1, toLow c2, toLow c3] with
        | some v => natChars v
        | none => [c1, c2, c3]) ++ replaceNames3 nm rest
    else c1 :: replaceNames3 nm (c2 :: c3 :: rest)
  | l => l

/-- The replaceNames function of the source. -/
def replaceNames (token : List Char) (fieldIndex : Nat) : List Char :=
  match nameMapFor fieldIndex with
  | none => token
  | some nm => replaceNames3 nm token

/-- Fuelled model of the value-generation loop of the source: start at
v, emit and add st while the value is at most e.  Every call passes a
positive st, for which (e - s).toNat + 1 units of fuel suffice. -/
def stepRangeAux : Nat → Int → Int → Int → List Int
  | 0, _, _, _ => []
  | fuel+1, v, e, st => if v ≤ e then v :: stepRangeAux fuel (v + st) e st else []

/-- The value-generation loop of the source for start s, end e, step st. -/
def stepRange (s e st : Int) : List Int := stepRangeAux ((e - s).toNat + 1) s e st

/-- The failure modes of the engine, one constructor per distinct
throw site of the source, carrying the data interpolated into the
thrown message. -/
inductive CronError where
  | invalidStep (token : List Char)
  | invalidRange (token : List Char)
  | invalidValue (value token : List Char)
  | outOfBounds (token : List Char) (lo hi : Int)
  | missingField
deriving Repr, DecidableEq

/-- The step computation of the source on the pieces of the slash
split: a missing or empty (falsy) step piece means step one, anything
else goes through parseInt; none models NaN. -/
def stepOf (parts : List (List Char)) : Option Int :=
  match parts[1]? with
  | none => some 1
  | some sp => if sp.isEmpty then some 1 else jsParseInt sp

/-- The range-part resolution of the source: a star is the whole
domain; a piece containing a dash splits at dashes and parses the
first two pieces, failing when either is NaN; anything else parses as
a single value, failing when it is NaN. -/
def resolveRange (rangePart : List Char) (t : List Char) (lo hi : Int) :
    Except CronError (Int × Int) :=
  if rangePart = ['*'] then .ok (lo, hi)
  else if hasChar '-' rangePart then
    let pieces := splitOnChar '-' rangePart
    match jsParseInt (pieces.headD []), (pieces[1]?).bind jsParseInt with
    | some a, some b => .ok (a, b)
    | _, _ => .error (.invalidRange t)
  else
    match jsParseInt rangePart with
    | some v => .ok (v, v)
    | none => .error (.invalidValue rangePart t)

/-- The day-of-week special case of the source: at field index 4 a
start or end equal to 7 becomes 0. -/
def dowFold (fieldIndex : Nat) (p : Int × Int) : Int × Int :=
  if fieldIndex = 4 then
    ((if p.1 = 7 then 0 else p.1), (if p.2 = 7 then 0 else p.2))
  else p

/-- The parseToken function of the source: trim, replace names, split
off the step, resolve the range, fold 7 to 0 for day-of-week, check
the bounds, then generate the values. -/
def parseToken (token : List Char) (lo hi : Int) (fieldIndex : Nat) :
    Except CronError (List Int) :=
  let t := replaceNames (trimChars token) fieldIndex
  let parts := splitOnChar '/' t
  match stepOf parts with
  | none => .error (.invalidStep t)
  | some step =>
    if step ≤ 0 then .error (.invalidStep t)
    else
      match resolveRange (parts.headD []) t lo hi with
      | .error e => .error e
      | .ok p =>
        let q := dowFold fieldIndex p
        if q.1 < lo ∨ q.1 > hi ∨ q.2 < lo ∨ q.2 > hi then
          .error (.outOfBounds t lo hi)
        else .ok (stepRange q.1 q.2 step)

/-- First-occurrence deduplication with an accumulator of already-seen
values: the model of inserting the array into a Set and reading the
insertion order back out. -/
def dedupFirstAux (seen : List Int) : List Int → List Int
  | [] => []
  | x :: xs =>
    if x ∈ seen then dedupFirstAux seen xs
    else x :: dedupFirstAux (x :: seen) xs

/-- First-occurrence deduplication. -/
def dedupFirst (l : List Int) : List Int := dedupFirstAux [] l

/-- The uniqueSorted function of the source: deduplicate through a
Set, then sort ascending with the numeric comparator.  Insertion sort
is used as the model of the sort; on the duplicate-free list the
ascending result is unique, so any correct sort gives this value. -/
def uniqueSorted (l : List Int) : List Int :=
  List.insertionSort (· ≤ ·) (dedupFirst l)

/-- The token loop of parseField in the source: expand each token in
order, concatenating the results; the first failure aborts. -/
def expandTokens (tokens : List (List Char)) (lo hi : Int) (fieldIndex : Nat) :
    Except CronError (List Int) :=
  match tokens with
  | [] => .ok []
  | t :: rest =>
    match parseToken t lo hi fieldIndex with
    | .error e => .error e
    | .ok vs =>
      match expandTokens rest lo hi fieldIndex with
      | .error e => .error e
      | .ok rs => .ok (vs ++ rs)

/-- The tokenisation step of parseField in the source: split at
commas, trim each piece, keep the non-empty pieces. -/
def fieldTokens (l : List Char) : List (List Char) :=
  ((splitOnChar ',' l).map trimChars).filter (fun p => !p.isEmpty)

/-- The parseField function of the source: an empty (falsy) field
string is the missing-field failure; otherwise expand the tokens and
normalise with uniqueSorted. -/
def parseFieldChars (l : List Char) (defIndex : Nat) :
    Except CronError (List Int) :=
  let d := fieldDef defIndex
  if l.isEmpty then .error .missingField
  else
    match expandTokens (fieldTokens l) d.min d.max defIndex with
    | .error e => .error e
    | .ok vals => .ok (uniqueSorted vals)

/-- parseField on a Lean string. -/
def parseFieldStr (s : String) (defIndex : Nat) : Except CronError (List Int) :=
  parseFieldChars s.data defIndex

deriving instance DecidableEq for Except

/-! ### Character facts -/

theorem isDigitChar_iff {c : Char} :
    isDigitChar c = true ↔ 48 ≤ c.toNat ∧ c.toNat ≤ 57 := by
  simp [isDigitChar]

theorem not_ws_of_digit {c : Char} (h : isDigitChar c = true) :
    isWSChar c = false := by
  rw [isDigitChar_iff] at h
  cases hw : isWSChar c with
  | false => rfl
  | true =>
    simp only [isWSChar, Bool.or_eq_true, beq_iff_eq] at hw
    rcases hw with ((((rfl | rfl) | rfl) | rfl) | rfl) | rfl <;>
      revert h <;> decide

theorem not_alpha_of_digit {c : Char} (h : isDigitChar c = true) :
    isAlphaCh c = false := by
  rw [isDigitChar_iff] at h
  cases ha : isAlphaCh c with
  | false => rfl
  | true =>
    simp only [isAlphaCh, Bool.or_eq_true, Bool.and_eq_true,
      decide_eq_true_eq] at ha
    omega

theorem ne_of_digit {c : Char} (h : isDigitChar c = true) {d : Char}
    (hd : isDigitChar d = false) : c ≠ d := by
  rintro rfl
  rw [h] at hd
  exact Bool.noConfusion hd

/-! ### Decimal rendering and parsing -/

theorem digitChar_digit {d : Nat} (h : d < 10) :
    isDigitChar (Nat.digitChar d) = true := by
  interval_cases d <;> decide

theorem digitVal_digitChar {d : Nat} (h : d < 10) :
    digitVal (Nat.digitChar d) = d := by
  interval_cases d <;> decide

theorem natCharsAux_all_digit :
    ∀ fuel n, n < fuel → ∀ c ∈ natCharsAux fuel n, isDigitChar c = true := by
  intro fuel
  induction fuel with
  | zero => intro n hn; omega
  | succ fuel ih =>
    intro n hn c hc
    by_cases h10 : n < 10
    · simp only [natCharsAux, if_pos h10, List.mem_singleton] at hc
      exact hc ▸ digitChar_digit h10
    · simp only [natCharsAux, if_neg h10, List.mem_append,
        List.mem_singleton] at hc
      rcases hc with hc | rfl
      · exact ih (n / 10) (by omega) c hc
      · exact digitChar_digit (Nat.mod_lt _ (by omega))

theorem natChars_all_digit (n : Nat) :
    ∀ c ∈ natChars n, isDigitChar c = true :=
  natCharsAux_all_digit (n + 1) n (Nat.lt_succ_self n)

theorem natCharsAux_ne_nil :
    ∀ fuel n, n < fuel → natCharsAux fuel n ≠ [] := by
  intro fuel
  cases fuel with
  | zero => intro n hn; omega
  | succ fuel =>
    intro n _ h
    by_cases h10 : n < 10
    · simp [natCharsAux, if_pos h10] at h
    · simp [natCharsAux, if_neg h10] at h

theorem natChars_ne_nil (n : Nat) : natChars n ≠ [] :=
  natCharsAux_ne_nil (n + 1) n (Nat.lt_succ_self n)

theorem digitsVal_append_singleton (l : List Char) (c : Char) :
    digitsVal (l ++ [c]) = 10 * digitsVal l + digitVal c := by
  simp [digitsVal, List.foldl_append]

theorem digitsVal_natCharsAux :
    ∀ fuel n, n < fuel → digitsVal (natCharsAux fuel n) = n := by
  intro fuel
  induction fuel with
  | zero => intro n hn; omega
  | succ fuel ih =>
    intro n hn
    by_cases h10 : n < 10
    · simp only [natCharsAux, if_pos h10]
      show digitsVal ([] ++ [Nat.digitChar n]) = n
      rw [digitsVal_append_singleton]
      simp [digitsVal, digitVal_digitChar h10]
    · simp only [natCharsAux, if_neg h10]
      rw [digitsVal_append_singleton, ih (n / 10) (by omega),
        digitVal_digitChar (Nat.mod_lt _ (by omega))]
      omega

theorem digitsVal_natChars (n : Nat) : digitsVal (natChars n) = n :=
  digitsVal_natCharsAux (n + 1) n (Nat.lt_succ_self n)

theorem takeWhile_append_all {p : Char → Bool} {A : List Char}
    (h : ∀ c ∈ A, p c = true) (B : List Char) :
    List.takeWhile p (A ++ B) = A ++ List.takeWhile p B := by
  induction A with
  | nil => simp
  | cons a A ih =>
    rw [List.cons_append,
      List.takeWhile_cons_of_pos (h a (List.mem_cons_self a A)),
      ih (fun c hc => h c (List.mem_cons_of_mem a hc)), List.cons_append]

theorem jsParseInt_digits (ds rest : List Char) (hne : ds ≠ [])
    (hd : ∀ c ∈ ds, isDigitChar c = true)
    (hrest : ∀ c, rest.head? = some c → isDigitChar c = false) :
    jsParseInt (ds ++ rest) = some ((digitsVal ds : Nat) : Int) := by
  obtain ⟨c, cs, rfl⟩ := List.exists_cons_of_ne_nil hne
  have hc : isDigitChar c = true := hd c (List.mem_cons_self c cs)
  have hrest' : List.takeWhile isDigitChar rest = [] := by
    cases rest with
    | nil => rfl
    | cons r rs =>
      have := hrest r rfl
      simp [List.takeWhile_cons, this]
  have hdrop : List.dropWhile isWSChar ((c :: cs) ++ rest)
      = c :: (cs ++ rest) := by
    simp [List.dropWhile_cons, not_ws_of_digit hc]
  simp only [jsParseInt, hdrop]
  rw [if_neg (ne_of_digit hc (by decide)), if_neg (ne_of_digit hc (by decide))]
  have htake : List.takeWhile isDigitChar (c :: (cs ++ rest))
      = c :: cs := by
    have : c :: (cs ++ rest) = (c :: cs) ++ rest := rfl
    rw [this, takeWhile_append_all hd, hrest', List.append_nil]
  simp only [readDigits, htake]
  rw [if_neg (by simp)]
  rfl

theorem jsParseInt_natChars (n : Nat) :
    jsParseInt (natChars n) = some ((n : Nat) : Int) := by
  have := jsParseInt_digits (natChars n) [] (natChars_ne_nil n)
    (natChars_all_digit n) (by intro c h; simp at h)
  rw [List.append_nil] at this
  rw [this, digitsVal_natChars]

/-! ### Splitting, trimming, the name replacement -/

theorem hasChar_iff {c : Char} {l : List Char} :
    hasChar c l = true ↔ c ∈ l := by
  induction l with
  | nil => simp [hasChar]
  | cons x xs ih =>
    simp only [hasChar, Bool.or_eq_true, beq_iff_eq, ih, List.mem_cons]
    constructor
    · rintro (rfl | h)
      · exact Or.inl rfl
      · exact Or.inr h
    · rintro (rfl | h)
      · exact Or.inl rfl
      · exact Or.inr h

theorem splitOnChar_ne_nil (sep : Char) (l : List Char) :
    splitOnChar sep l ≠ [] := by
  cases l with
  | nil => simp [splitOnChar]
  | cons c rest =>
    by_cases h : c = sep
    · simp [splitOnChar, h]
    · simp only [splitOnChar, if_neg h]
      cases splitOnChar sep rest <;> simp

theorem splitOnChar_of_not_mem {sep : Char} :
    ∀ {l : List Char}, (∀ c ∈ l, c ≠ sep) → splitOnChar sep l = [l] := by
  intro l
  induction l with
  | nil => intro _; rfl
  | cons c rest ih =>
    intro h
    have hc : c ≠ sep := h c (List.mem_cons_self c rest)
    rw [splitOnChar, if_neg hc, ih fun x hx => h x (List.mem_cons_of_mem c hx)]

theorem splitOnChar_append {sep : Char} :
    ∀ {A : List Char}, (∀ c ∈ A, c ≠ sep) → ∀ B,
      splitOnChar sep (A ++ sep :: B) = A :: splitOnChar sep B := by
  intro A
  induction A with
  | nil =>
    intro _ B
    simp [splitOnChar]
  | cons a A ih =>
    intro h B
    have ha : a ≠ sep := h a (List.mem_cons_self a A)
    rw [List.cons_append, splitOnChar, if_neg ha,
      ih (fun x hx => h x (List.mem_cons_of_mem a hx)) B]

theorem dropWhile_all_false {p : Char → Bool} {l : List Char}
    (h : ∀ c ∈ l, p c = false) : l.dropWhile p = l := by
  cases l with
  | nil => rfl
  | cons c rest =>
    have := h c (List.mem_cons_self c rest)
    simp [List.dropWhile_cons, this]

theorem dropWhile_all_true {p : Char → Bool} :
    ∀ {l : List Char}, (∀ c ∈ l, p c = true) → l.dropWhile p = [] := by
  intro l
  induction l with
  | nil => intro _; rfl
  | cons c rest ih =>
    intro h
    rw [List.dropWhile_cons_of_pos (h c (List.mem_cons_self c rest))]
    exact ih fun x hx => h x (List.mem_cons_of_mem c hx)

theorem trimChars_eq_self {l : List Char}
    (h : ∀ c ∈ l, isWSChar c = false) : trimChars l = l := by
  unfold trimChars
  rw [dropWhile_all_false h,
    dropWhile_all_false (fun c hc => h c (List.mem_reverse.mp hc)),
    List.reverse_reverse]

theorem trimChars_all_ws {l : List Char}
    (h : ∀ c ∈ l, isWSChar c = true) : trimChars l = [] := by
  unfold trimChars
  rw [dropWhile_all_true h]
  rfl

theorem replaceNames3_no_alpha {nm : List Char → Option Nat} :
    ∀ {l : List Char}, (∀ c ∈ l, isAlphaCh c = false) →
      replaceNames3 nm l = l := by
  intro l
  induction l with
  | nil => intro _; rfl
  | cons c1 cs ih =>
    intro h
    match cs with
    | [] => rfl
    | [c2] => rfl
    | c2 :: c3 :: rest =>
      have h1 : isAlphaCh c1 = false := h c1 (by simp)
      rw [replaceNames3, if_neg (by simp [h1])]
      exact congrArg (c1 :: ·) (ih fun x hx => h x (List.mem_cons_of_mem c1 hx))

theorem replaceNames_no_alpha (token : List Char) (fieldIndex : Nat)
    (h : ∀ c ∈ token, isAlphaCh c = false) :
    replaceNames token fieldIndex = token := by
  unfold replaceNames
  cases nameMapFor fieldIndex with
  | none => rfl
  | some nm => exact replaceNames3_no_alpha h

/-! ### The generation loop -/

theorem stepRangeAux_nil {s e st : Int} (h : e < s) :
    ∀ fuel, stepRangeAux fuel s e st = [] := by
  intro fuel
  cases fuel with
  | zero => rfl
  | succ fuel => simp [stepRangeAux, Int.not_le.mpr h]

theorem stepRangeAux_mem {e st : Int} (hst : 0 < st) :
    ∀ fuel (s : Int), (e - s).toNat < fuel →
      ∀ v, v ∈ stepRangeAux fuel s e st ↔
        ∃ k : Nat, v = s + k * st ∧ v ≤ e := by
  intro fuel
  induction fuel with
  | zero => intro s hs; omega
  | succ fuel ih =>
    intro s hs v
    by_cases hse : s ≤ e
    · rw [stepRangeAux, if_pos hse]
      by_cases hse2 : s + st ≤ e
      · have hrec := ih (s + st) (by omega) v
        simp only [List.mem_cons, hrec]
        constructor
        · rintro (rfl | ⟨k, rfl, hk⟩)
          · exact ⟨0, by simp, hse⟩
          · refine ⟨k + 1, ?_, hk⟩
            push_cast
            ring
        · rintro ⟨k, rfl, hk⟩
          cases k with
          | zero => left; simp
          | succ k =>
            right
            refine ⟨k, ?_, hk⟩
            push_cast
            ring
      · rw [stepRangeAux_nil (by omega)]
        simp only [List.mem_singleton]
        constructor
        · rintro rfl
          exact ⟨0, by simp, hse⟩
        · rintro ⟨k, rfl, hk⟩
          cases k with
          | zero => simp
          | succ k =>
            exfalso
            have h1 : (1 : Int) ≤ (k : Int) + 1 := by
              have := Nat.cast_nonneg (α := Int) k
              omega
            have h2 : (1 : Int) * st ≤ ((k : Int) + 1) * st :=
              mul_le_mul_of_nonneg_right h1 (le_of_lt hst)
            push_cast at hk
            nlinarith
    · rw [stepRangeAux_nil (by omega)]
      simp only [List.not_mem_nil, false_iff, not_exists]
      rintro k ⟨rfl, hk⟩
      have : (0 : Int) ≤ (k : Int) * st :=
        mul_nonneg (Nat.cast_nonneg k) (le_of_lt hst)
      omega

theorem mem_stepRange {s e st v : Int} (hst : 0 < st) :
    v ∈ stepRange s e st ↔ ∃ k : Nat, v = s + k * st ∧ v ≤ e :=
  stepRangeAux_mem hst _ s (Nat.lt_succ_self _) v

theorem stepRange_nil {s e st : Int} (h : e < s) : stepRange s e st = [] :=
  stepRangeAux_nil h _

theorem mem_stepRange_one {s e v : Int} :
    v ∈ stepRange s e 1 ↔ s ≤ v ∧ v ≤ e := by
  rw [mem_stepRange (by norm_num)]
  constructor
  · rintro ⟨k, rfl, hk⟩
    constructor
    · have : (0 : Int) ≤ (k : Int) := Nat.cast_nonneg k
      omega
    · exact hk
  · rintro ⟨h1, h2⟩
    refine ⟨(v - s).toNat, ?_, h2⟩
    simp only [mul_one]
    omega

theorem stepRange_bounds {s e st v : Int} (hst : 0 < st)
    (h : v ∈ stepRange s e st) : s ≤ v ∧ v ≤ e := by
  rw [mem_stepRange hst] at h
  obtain ⟨k, rfl, hk⟩ := h
  have : (0 : Int) ≤ (k : Int) * st :=
    mul_nonneg (Nat.cast_nonneg k) (le_of_lt hst)
  exact ⟨by omega, hk⟩

/-! ### Deduplication and sorting -/

theorem mem_dedupFirstAux :
    ∀ (l seen : List Int) (v : Int),
      v ∈ dedupFirstAux seen l ↔ v ∈ l ∧ v ∉ seen := by
  intro l
  induction l with
  | nil => intro seen v; simp [dedupFirstAux]
  | cons x xs ih =>
    intro seen v
    by_cases hx : x ∈ seen
    · rw [dedupFirstAux, if_pos hx, ih]
      simp only [List.mem_cons]
      constructor
      · rintro ⟨h1, h2⟩
        exact ⟨Or.inr h1, h2⟩
      · rintro ⟨h1 | h1, h2⟩
        · exact absurd (h1 ▸ hx) h2
        · exact ⟨h1, h2⟩
    · rw [dedupFirstAux, if_neg hx]
      simp only [List.mem_cons, ih]
      constructor
      · rintro (rfl | ⟨h1, h2⟩)
        · exact ⟨Or.inl rfl, hx⟩
        · exact ⟨Or.inr h1, fun hv => h2 (Or.inr hv)⟩
      · rintro ⟨rfl | h1, h2⟩
        · exact Or.inl rfl
        · by_cases hvx : v = x
          · exact Or.inl hvx
          · exact Or.inr ⟨h1, fun hv => hv.elim hvx h2⟩

theorem nodup_dedupFirstAux :
    ∀ (l seen : List Int), (dedupFirstAux seen l).Nodup := by
  intro l
  induction l with
  | nil => intro seen; simp [dedupFirstAux]
  | cons x xs ih =>
    intro seen
    by_cases hx : x ∈ seen
    · rw [dedupFirstAux, if_pos hx]
      exact ih seen
    · rw [dedupFirstAux, if_neg hx]
      refine List.Nodup.cons ?_ (ih (x :: seen))
      intro hmem
      exact ((mem_dedupFirstAux xs (x :: seen) x).mp hmem).2 (by simp)

theorem mem_dedupFirst {l : List Int} {v : Int} :
    v ∈ dedupFirst l ↔ v ∈ l := by
  rw [dedupFirst, mem_dedupFirstAux]
  simp

theorem nodup_dedupFirst (l : List Int) : (dedupFirst l).Nodup :=
  nodup_dedupFirstAux l []

theorem mem_uniqueSorted {l : List Int} {v : Int} :
    v ∈ uniqueSorted l ↔ v ∈ l :=
  ((List.perm_insertionSort _ _).mem_iff).trans mem_dedupFirst

theorem nodup_uniqueSorted (l : List Int) : (uniqueSorted l).Nodup :=
  ((List.perm_insertionSort _ _).nodup_iff).mpr (nodup_dedupFirst l)

theorem sorted_le_uniqueSorted (l : List Int) :
    List.Sorted (· ≤ ·) (uniqueSorted l) :=
  List.sorted_insertionSort _ _

theorem sorted_lt_uniqueSorted (l : List Int) :
    List.Sorted (· < ·) (uniqueSorted l) := by
  have hs := sorted_le_uniqueSorted l
  have hn : List.Pairwise (· ≠ ·) (uniqueSorted l) := nodup_uniqueSorted l
  exact (hs.and hn).imp fun h => lt_of_le_of_ne h.1 h.2

theorem uniqueSorted_eq_of_mem_iff {l1 l2 : List Int}
    (h : ∀ v, v ∈ l1 ↔ v ∈ l2) : uniqueSorted l1 = uniqueSorted l2 := by
  refine List.eq_of_perm_of_sorted ?_
    (sorted_le_uniqueSorted l1) (sorted_le_uniqueSorted l2)
  rw [List.perm_ext_iff_of_nodup (nodup_uniqueSorted l1) (nodup_uniqueSorted l2)]
  intro v
  rw [mem_uniqueSorted, mem_uniqueSorted]
  exact h v

/-! ### The token loop and the field pipeline -/

theorem expandTokens_ok_mem {lo hi : Int} {idx : Nat} :
    ∀ {tokens : List (List Char)} {vals : List Int},
      expandTokens tokens lo hi idx = .ok vals →
      ∀ v, v ∈ vals ↔
        ∃ p ∈ tokens, ∃ vs, parseToken p lo hi idx = .ok vs ∧ v ∈ vs := by
  intro tokens
  induction tokens with
  | nil =>
    intro vals h v
    rw [expandTokens] at h
    cases h
    simp
  | cons t rest ih =>
    intro vals h v
    rw [expandTokens] at h
    cases ht : parseToken t lo hi idx with
    | error e => rw [ht] at h; cases h
    | ok vs =>
      rw [ht] at h
      cases hrest : expandTokens rest lo hi idx with
      | error e => rw [hrest] at h; cases h
      | ok rs =>
        rw [hrest] at h
        cases h
        simp only [List.mem_append, ih hrest v, List.mem_cons]
        constructor
        · rintro (hv | ⟨p, hp, vs', hvs', hv⟩)
          · exact ⟨t, Or.inl rfl, vs, ht, hv⟩
          · exact ⟨p, Or.inr hp, vs', hvs', hv⟩
        · rintro ⟨p, rfl | hp, vs', hvs', hv⟩
          · rw [ht] at hvs'
            cases hvs'
            exact Or.inl hv
          · exact Or.inr ⟨p, hp, vs', hvs', hv⟩

theorem expandTokens_ok_all {lo hi : Int} {idx : Nat} :
    ∀ {tokens : List (List Char)} {vals : List Int},
      expandTokens tokens lo hi idx = .ok vals →
      ∀ p ∈ tokens, ∃ vs, parseToken p lo hi idx = .ok vs := by
  intro tokens
  induction tokens with
  | nil => intro vals _ p hp; cases hp
  | cons t rest ih =>
    intro vals h p hp
    rw [expandTokens] at h
    cases ht : parseToken t lo hi idx with
    | error e => rw [ht] at h; cases h
    | ok vs =>
      rw [ht] at h
      cases hrest : expandTokens rest lo hi idx with
      | error e => rw [hrest] at h; cases h
      | ok rs =>
        rcases List.mem_cons.mp hp with rfl | hp'
        · exact ⟨vs, ht⟩
        · exact ih hrest p hp'

theorem parseFieldChars_ok {l : List Char} {idx : Nat} {out : List Int}
    (h : parseFieldChars l idx = .ok out) :
    ∃ vals, expandTokens (fieldTokens l) (fieldDef idx).min (fieldDef idx).max
        idx = .ok vals ∧ out = uniqueSorted vals := by
  rw [parseFieldChars] at h
  by_cases hl : l.isEmpty
  · rw [if_pos hl] at h; cases h
  · rw [if_neg hl] at h
    cases he : expandTokens (fieldTokens l) (fieldDef idx).min
        (fieldDef idx).max idx with
    | error e => rw [he] at h; cases h
    | ok vals =>
      rw [he] at h
      cases h
      exact ⟨vals, rfl, rfl⟩

theorem parseToken_ok_inv {token : List Char} {lo hi : Int} {idx : Nat}
    {vs : List Int} (h : parseToken token lo hi idx = .ok vs) :
    ∃ step p,
      stepOf (splitOnChar '/' (replaceNames (trimChars token) idx))
        = some step ∧
      0 < step ∧
      resolveRange
        ((splitOnChar '/' (replaceNames (trimChars token) idx)).headD [])
        (replaceNames (trimChars token) idx) lo hi = .ok p ∧
      lo ≤ (dowFold idx p).1 ∧ (dowFold idx p).1 ≤ hi ∧
      lo ≤ (dowFold idx p).2 ∧ (dowFold idx p).2 ≤ hi ∧
      vs = stepRange (dowFold idx p).1 (dowFold idx p).2 step := by
  simp only [parseToken] at h
  cases hstep : stepOf (splitOnChar '/' (replaceNames (trimChars token) idx))
      with
  | none => simp only [hstep] at h; cases h
  | some step =>
    simp only [hstep] at h
    by_cases hs0 : step ≤ 0
    · rw [if_pos hs0] at h; cases h
    · rw [if_neg hs0] at h
      cases hres : resolveRange
          ((splitOnChar '/' (replaceNames (trimChars token) idx)).headD [])
          (replaceNames (trimChars token) idx) lo hi with
      | error e => simp only [hres] at h; cases h
      | ok p =>
        simp only [hres] at h
        by_cases hb : (dowFold idx p).1 < lo ∨ (dowFold idx p).1 > hi ∨
            (dowFold idx p).2 < lo ∨ (dowFold idx p).2 > hi
        · rw [if_pos hb] at h; cases h
        · rw [if_neg hb] at h
          cases h
          push_neg at hb
          exact ⟨step, p, rfl, not_le.mp hs0, rfl,
            hb.1, hb.2.1, hb.2.2.1, hb.2.2.2, rfl⟩

theorem parseToken_ok_bounds {token : List Char} {lo hi : Int} {idx : Nat}
    {vs : List Int} (h : parseToken token lo hi idx = .ok vs) :
    ∀ v ∈ vs, lo ≤ v ∧ v ≤ hi := by
  obtain ⟨step, p, _, hstep_pos, _, h1, h2, h3, h4, rfl⟩ := parseToken_ok_inv h
  intro v hv
  obtain ⟨hv1, hv2⟩ := stepRange_bounds hstep_pos hv
  exact ⟨le_trans h1 hv1, le_trans hv2 h4⟩

theorem natChars_no_ws (n : Nat) : ∀ ch ∈ natChars n, isWSChar ch = false :=
  fun ch hch => not_ws_of_digit (natChars_all_digit n ch hch)

theorem natChars_no_alpha (n : Nat) :
    ∀ ch ∈ natChars n, isAlphaCh ch = false :=
  fun ch hch => not_alpha_of_digit (natChars_all_digit n ch hch)

theorem natChars_ne (n : Nat) {d : Char} (hd : isDigitChar d = false) :
    ∀ ch ∈ natChars n, ch ≠ d :=
  fun ch hch => ne_of_digit (natChars_all_digit n ch hch) hd

/-- Evaluation of parseToken on a token of the shape a-b/c built from
decimal renderings, under the hypotheses that the day-of-week fold is
the identity on (a, b) and that both bounds lie in the domain. -/
theorem parseToken_range_step (a b c : Nat) (lo hi : Int) (idx : Nat)
    (hc : 0 < c)
    (hfold : dowFold idx ((a : Int), (b : Int)) = ((a : Int), (b : Int)))
    (ha1 : lo ≤ (a : Int)) (ha2 : (a : Int) ≤ hi)
    (hb1 : lo ≤ (b : Int)) (hb2 : (b : Int) ≤ hi) :
    parseToken (natChars a ++ '-' :: (natChars b ++ '/' :: natChars c))
        lo hi idx
      = .ok (stepRange (a : Int) (b : Int) (c : Int)) := by
  have hA := natChars_all_digit a
  have hB := natChars_all_digit b
  have hC := natChars_all_digit c
  have htok_nows :
      ∀ ch ∈ natChars a ++ '-' :: (natChars b ++ '/' :: natChars c),
        isWSChar ch = false := by
    intro ch hch
    simp only [List.mem_append, List.mem_cons] at hch
    rcases hch with h | rfl | h | rfl | h
    · exact not_ws_of_digit (hA ch h)
    · decide
    · exact not_ws_of_digit (hB ch h)
    · decide
    · exact not_ws_of_digit (hC ch h)
  have htok_noal :
      ∀ ch ∈ natChars a ++ '-' :: (natChars b ++ '/' :: natChars c),
        isAlphaCh ch = false := by
    intro ch hch
    simp only [List.mem_append, List.mem_cons] at hch
    rcases hch with h | rfl | h | rfl | h
    · exact not_alpha_of_digit (hA ch h)
    · decide
    · exact not_alpha_of_digit (hB ch h)
    · decide
    · exact not_alpha_of_digit (hC ch h)
  have hsplit : splitOnChar '/'
      (natChars a ++ '-' :: (natChars b ++ '/' :: natChars c))
      = [natChars a ++ '-' :: natChars b, natChars c] := by
    have hassoc : natChars a ++ '-' :: (natChars b ++ '/' :: natChars c)
        = (natChars a ++ '-' :: natChars b) ++ '/' :: natChars c := by
      simp
    rw [hassoc, splitOnChar_append, splitOnChar_of_not_mem]
    · exact natChars_ne c (by decide)
    · intro ch hch
      simp only [List.mem_append, List.mem_cons] at hch
      rcases hch with h | rfl | h
      · exact natChars_ne a (by decide) ch h
      · decide
      · exact natChars_ne b (by decide) ch h
  have hCne : (natChars c).isEmpty = false := by
    cases hcc : natChars c with
    | nil => exact absurd hcc (natChars_ne_nil c)
    | cons x xs => rfl
  have hstep : stepOf [natChars a ++ '-' :: natChars b, natChars c]
      = some ((c : Nat) : Int) := by
    rw [stepOf]
    show (if (natChars c).isEmpty then some 1 else jsParseInt (natChars c))
      = some ((c : Nat) : Int)
    rw [hCne]
    show jsParseInt (natChars c) = some ((c : Nat) : Int)
    exact jsParseInt_natChars c
  have hsplitdash : splitOnChar '-' (natChars a ++ '-' :: natChars b)
      = [natChars a, natChars b] := by
    rw [splitOnChar_append (natChars_ne a (by decide)),
      splitOnChar_of_not_mem (natChars_ne b (by decide))]
  have hstar : ¬(natChars a ++ '-' :: natChars b = ['*']) := by
    intro heq
    have hmem : '-' ∈ natChars a ++ '-' :: natChars b := by simp
    rw [heq, List.mem_singleton] at hmem
    exact absurd hmem (by decide)
  have hdash : hasChar '-' (natChars a ++ '-' :: natChars b) = true := by
    rw [hasChar_iff]
    simp
  have hres : resolveRange (natChars a ++ '-' :: natChars b)
      (natChars a ++ '-' :: (natChars b ++ '/' :: natChars c)) lo hi
      = .ok ((a : Int), (b : Int)) := by
    rw [resolveRange, if_neg hstar, if_pos hdash]
    show (match jsParseInt ((splitOnChar '-'
        (natChars a ++ '-' :: natChars b)).headD []),
        ((splitOnChar '-' (natChars a ++ '-' :: natChars b))[1]?).bind
          jsParseInt with
      | some a', some b' => Except.ok (a', b')
      | _, _ => Except.error (CronError.invalidRange _)) = _
    rw [hsplitdash]
    show (match jsParseInt (natChars a), (some (natChars b)).bind jsParseInt
        with
      | some a', some b' => Except.ok (a', b')
      | _, _ => Except.error (CronError.invalidRange _)) = _
    rw [Option.some_bind, jsParseInt_natChars, jsParseInt_natChars]
  simp only [parseToken]
  rw [trimChars_eq_self htok_nows, replaceNames_no_alpha _ _ htok_noal]
  simp only [hsplit, hstep, List.headD_cons]
  rw [if_neg (show ¬((c : Nat) : Int) ≤ 0 by omega)]
  simp only [hres, hfold]
  rw [if_neg (by omega)]

theorem ws_ne_comma {c : Char} (h : isWSChar c = true) : c ≠ ',' := by
  simp only [isWSChar, Bool.or_eq_true, beq_iff_eq] at h
  rcases h with ((((rfl | rfl) | rfl) | rfl) | rfl) | rfl <;> decide

/-! ### The claims -/

/-- Claim C1 as stated is false: in the day-of-week field the text 0-7
does not expand to the whole week, because the fold rewrites the upper
bound 7 to 0 before the generation loop runs. -/
theorem claim1_counterexample :
    parseFieldStr "0-7" 4 ≠ Except.ok [0, 1, 2, 3, 4, 5, 6] := by
  decide

/-- Claim C1, amended: in the day-of-week field the token 7 expands
exactly as the token 0 does, and the token 0-7 expands to the single
value 0 (not to the full week), because the 7-to-0 fold applies to the
upper bound before generation. -/
theorem claim1_dow_alias :
    parseFieldStr "7" 4 = parseFieldStr "0" 4 ∧
    parseFieldStr "0-7" 4 = Except.ok [0] := by
  constructor
  · decide
  · decide

/-- Claim C2 as stated is false: a token ending in a slash with
nothing after it does not fail; the empty step piece is falsy, so the
step silently defaults to 1 and the token expands normally. -/
theorem claim2_counterexample : parseFieldStr "5/" 0 = Except.ok [5] := by
  decide

/-- Claim C2, amended: when the piece after the slash is non-empty and
parses to NaN, zero or a negative number, expansion of the token fails
with the invalid-step error; when the piece after the slash is empty,
the step defaults to 1 instead of failing. -/
theorem claim2_step_errors :
    ∀ (token sp : List Char) (lo hi : Int) (idx : Nat),
    (splitOnChar '/' (replaceNames (trimChars token) idx))[1]? = some sp →
    (sp ≠ [] →
      (jsParseInt sp = none ∨ ∃ n : Int, jsParseInt sp = some n ∧ n ≤ 0) →
      parseToken token lo hi idx
        = .error (.invalidStep (replaceNames (trimChars token) idx))) ∧
    (sp = [] →
      stepOf (splitOnChar '/' (replaceNames (trimChars token) idx))
        = some 1) := by
  intro token sp lo hi idx hsp
  constructor
  · intro hne hbad
    have hempty : sp.isEmpty = false := by
      cases sp with
      | nil => exact absurd rfl hne
      | cons x xs => rfl
    have h1 : stepOf (splitOnChar '/' (replaceNames (trimChars token) idx))
        = jsParseInt sp := by
      rw [stepOf, hsp]
      simp [hempty]
    rcases hbad with hnone | ⟨n, hn, hn0⟩
    · simp only [parseToken, h1.trans hnone]
    · simp only [parseToken, h1.trans hn]
      rw [if_pos hn0]
  · intro hnil
    subst hnil
    rw [stepOf, hsp]
    rfl

/-- Witness for the amended claim C2 at the concrete minute token 5/0,
whose step piece parses to zero. -/
theorem claim2_witness :
    (splitOnChar '/' (replaceNames (trimChars ("5/0".data)) 0))[1]?
      = some ['0'] ∧
    parseToken ("5/0".data) 0 59 0
      = .error (.invalidStep ['5', '/', '0']) :=
  ⟨by decide,
    (claim2_step_errors ("5/0".data) ['0'] 0 59 0 (by decide)).1 (by decide)
      (Or.inr ⟨0, by decide, by decide⟩)⟩

/-- Claim C3 as stated is false: a field made only of whitespace is a
truthy string, so the missing-field check does not fire; tokenisation
then drops the blank token and the expansion returns the empty set. -/
theorem claim3_counterexample : parseFieldStr "   " 0 = Except.ok [] := by
  decide

/-- Claim C3, amended: for every field index, expanding the empty
field text fails with the missing-field error, but a field text made
entirely of whitespace does not fail: it returns the empty expansion. -/
theorem claim3_missing_field :
    (∀ idx : Nat, idx < 5 →
      parseFieldChars [] idx = .error .missingField) ∧
    (∀ (idx : Nat) (l : List Char), idx < 5 → l ≠ [] →
      (∀ c ∈ l, isWSChar c = true) → parseFieldChars l idx = .ok []) := by
  constructor
  · intro idx _
    rfl
  · intro idx l _ hne hws
    have hcomma : ∀ c ∈ l, c ≠ ',' := fun c hc => ws_ne_comma (hws c hc)
    have hempty : l.isEmpty = false := by
      cases l with
      | nil => exact absurd rfl hne
      | cons x xs => rfl
    have htok : fieldTokens l = [] := by
      rw [fieldTokens, splitOnChar_of_not_mem hcomma]
      simp [trimChars_all_ws hws]
    simp only [parseFieldChars]
    rw [if_neg (by simp [hempty]), htok]
    rfl

/-- Witness for the amended claim C3 at the two-space minute field. -/
theorem claim3_witness :
    (("  ".data : List Char) ≠ [] ∧ ∀ c ∈ ("  ".data : List Char),
      isWSChar c = true) ∧
    parseFieldChars ("  ".data) 0 = Except.ok [] :=
  ⟨⟨by decide, by decide⟩,
    claim3_missing_field.2 0 ("  ".data) (by decide) (by decide) (by decide)⟩

/-- Claim C9: whenever the resolved range of a token, after the
day-of-week fold, has its start or end outside the domain, the token
fails with the out-of-bounds error; in particular the minute field 60
fails that way. -/
theorem claim9_bounds :
    (∀ (token : List Char) (lo hi : Int) (idx : Nat) (st : Int)
        (p : Int × Int),
      stepOf (splitOnChar '/' (replaceNames (trimChars token) idx))
        = some st →
      0 < st →
      resolveRange
        ((splitOnChar '/' (replaceNames (trimChars token) idx)).headD [])
        (replaceNames (trimChars token) idx) lo hi = .ok p →
      ((dowFold idx p).1 < lo ∨ (dowFold idx p).1 > hi ∨
        (dowFold idx p).2 < lo ∨ (dowFold idx p).2 > hi) →
      parseToken token lo hi idx
        = .error (.outOfBounds (replaceNames (trimChars token) idx) lo hi)) ∧
    parseFieldStr "60" 0 = .error (.outOfBounds ['6', '0'] 0 59) := by
  constructor
  · intro token lo hi idx st p hstep hpos hres hbad
    simp only [parseToken, hstep]
    rw [if_neg (not_le.mpr hpos)]
    simp only [hres]
    rw [if_pos hbad]
  · decide

/-- Witness for claim C9 at the minute token 60, which resolves to the
pair (60, 60) lying above the domain bound 59. -/
theorem claim9_witness :
    ((dowFold 0 ((60 : Int), (60 : Int))).1 < 0 ∨
      (dowFold 0 ((60 : Int), (60 : Int))).1 > 59 ∨
      (dowFold 0 ((60 : Int), (60 : Int))).2 < 0 ∨
      (dowFold 0 ((60 : Int), (60 : Int))).2 > 59) ∧
    parseToken ("60".data) 0 59 0
      = .error (.outOfBounds ['6', '0'] 0 59) :=
  ⟨by decide,
    claim9_bounds.1 ("60".data) 0 59 0 1 ((60 : Int), (60 : Int))
      (by decide) (by decide) (by decide) (by decide)⟩

/-- Claim C10: numeric parsing reads the longest leading digit run and
silently ignores every trailing character, so a minute token 5x
expands exactly as 5 does and a step 3q exactly as 3. -/
theorem claim10_trailing :
    (∀ ds rest : List Char, ds ≠ [] →
      (∀ c ∈ ds, isDigitChar c = true) →
      (∀ c, rest.head? = some c → isDigitChar c = false) →
      jsParseInt (ds ++ rest) = some ((digitsVal ds : Nat) : Int)) ∧
    parseFieldStr "5x" 0 = parseFieldStr "5" 0 ∧
    parseFieldStr "*/3q" 0 = parseFieldStr "*/3" 0 :=
  ⟨jsParseInt_digits, by decide, by decide⟩

/-- Witness for claim C10 on the digit run 5 followed by the trailing
letter x. -/
theorem claim10_witness :
    (['5'] : List Char) ≠ [] ∧
    jsParseInt (['5'] ++ ['x']) = some 5 :=
  ⟨by decide, claim10_trailing.1 ['5'] ['x'] (by decide) (by decide)
    (by decide)⟩

/-- Claim C4: for bounds a and b inside the domain of the field and a
positive step c, the token a-b/c expands to the arithmetic progression
from a with increment c truncated at b, which is empty when a exceeds
b; in particular no error is raised for reversed bounds. -/
theorem claim4_step_coverage :
    ∀ (idx : Nat), idx < 5 → ∀ a b c : Nat,
    (fieldDef idx).min ≤ (a : Int) → (a : Int) ≤ (fieldDef idx).max →
    (fieldDef idx).min ≤ (b : Int) → (b : Int) ≤ (fieldDef idx).max →
    0 < c →
    parseToken (natChars a ++ '-' :: (natChars b ++ '/' :: natChars c))
        (fieldDef idx).min (fieldDef idx).max idx
      = .ok (stepRange (a : Int) (b : Int) (c : Int)) ∧
    (∀ v : Int, v ∈ stepRange (a : Int) (b : Int) (c : Int) ↔
      ∃ k : Nat, v = (a : Int) + (k : Int) * (c : Int) ∧ v ≤ (b : Int)) ∧
    ((b : Int) < (a : Int) → stepRange (a : Int) (b : Int) (c : Int) = []) := by
  intro idx hidx a b c ha1 ha2 hb1 hb2 hc
  have hfold : dowFold idx ((a : Int), (b : Int)) = ((a : Int), (b : Int)) := by
    by_cases h4 : idx = 4
    · subst h4
      have hmax : (fieldDef 4).max = 6 := rfl
      rw [hmax] at ha2 hb2
      rw [dowFold, if_pos rfl]
      dsimp only
      rw [if_neg (by omega), if_neg (by omega)]
    · rw [dowFold, if_neg h4]
  refine ⟨parseToken_range_step a b c _ _ idx hc hfold ha1 ha2 hb1 hb2,
    ?_, ?_⟩
  · intro v
    exact mem_stepRange (by omega)
  · intro hba
    exact stepRange_nil hba

/-- Witness for claim C4 at the minute token 10-40/7. -/
theorem claim4_witness :
    ((fieldDef 0).min ≤ (10 : Int) ∧ (40 : Int) ≤ (fieldDef 0).max) ∧
    (parseToken (natChars 10 ++ '-' :: (natChars 40 ++ '/' :: natChars 7))
        (fieldDef 0).min (fieldDef 0).max 0
      = .ok (stepRange (10 : Int) (40 : Int) (7 : Int)) ∧
    (∀ v : Int, v ∈ stepRange (10 : Int) (40 : Int) (7 : Int) ↔
      ∃ k : Nat, v = (10 : Int) + (k : Int) * (7 : Int) ∧ v ≤ (40 : Int)) ∧
    ((40 : Int) < (10 : Int) →
      stepRange (10 : Int) (40 : Int) (7 : Int) = [])) :=
  ⟨⟨by decide, by decide⟩,
    claim4_step_coverage 0 (by decide) 10 40 7 (by decide) (by decide)
      (by decide) (by decide) (by decide)⟩

/-- Claim C5: for every field, the star text expands to exactly the
ascending run of all integers of the domain. -/
theorem claim5_wildcard :
    ∀ idx : Nat, idx < 5 →
    ∃ out, parseFieldChars ['*'] idx = .ok out ∧
      List.Sorted (· < ·) out ∧
      ∀ v : Int, v ∈ out ↔
        (fieldDef idx).min ≤ v ∧ v ≤ (fieldDef idx).max := by
  intro idx hidx
  interval_cases idx
  · refine ⟨uniqueSorted (stepRange 0 59 1), by decide,
      sorted_lt_uniqueSorted _, fun v => ?_⟩
    simp only [mem_uniqueSorted, mem_stepRange_one]
    exact Iff.rfl
  · refine ⟨uniqueSorted (stepRange 0 23 1), by decide,
      sorted_lt_uniqueSorted _, fun v => ?_⟩
    simp only [mem_uniqueSorted, mem_stepRange_one]
    exact Iff.rfl
  · refine ⟨uniqueSorted (stepRange 1 31 1), by decide,
      sorted_lt_uniqueSorted _, fun v => ?_⟩
    simp only [mem_uniqueSorted, mem_stepRange_one]
    exact Iff.rfl
  · refine ⟨uniqueSorted (stepRange 1 12 1), by decide,
      sorted_lt_uniqueSorted _, fun v => ?_⟩
    simp only [mem_uniqueSorted, mem_stepRange_one]
    exact Iff.rfl
  · refine ⟨uniqueSorted (stepRange 0 6 1), by decide,
      sorted_lt_uniqueSorted _, fun v => ?_⟩
    simp only [mem_uniqueSorted, mem_stepRange_one]
    exact Iff.rfl

/-- Witness for claim C5 at the minute field. -/
theorem claim5_witness :
    ∃ out, parseFieldChars ['*'] 0 = .ok out ∧
      List.Sorted (· < ·) out ∧
      ∀ v : Int, v ∈ out ↔
        (fieldDef 0).min ≤ v ∧ v ≤ (fieldDef 0).max :=
  claim5_wildcard 0 (by decide)

/-- Claim C7: every successful field expansion is strictly ascending
(hence duplicate free) and every member lies inside the domain of the
field; the day-of-week fold happens before the bounds are checked, so
the produced members themselves always satisfy the bounds. -/
theorem claim7_invariant :
    ∀ (l : List Char) (idx : Nat) (out : List Int), idx < 5 →
    parseFieldChars l idx = .ok out →
    List.Sorted (· < ·) out ∧
    ∀ v ∈ out, (fieldDef idx).min ≤ v ∧ v ≤ (fieldDef idx).max := by
  intro l idx out _ h
  obtain ⟨vals, hexp, rfl⟩ := parseFieldChars_ok h
  refine ⟨sorted_lt_uniqueSorted vals, ?_⟩
  intro v hv
  rw [mem_uniqueSorted, expandTokens_ok_mem hexp] at hv
  obtain ⟨p, hp, vs, hvs, hvmem⟩ := hv
  exact parseToken_ok_bounds hvs v hvmem

/-- Witness for claim C7 at the minute field 1,3. -/
theorem claim7_witness :
    List.Sorted (· < ·) ([1, 3] : List Int) ∧
    ∀ v ∈ ([1, 3] : List Int),
      (fieldDef 0).min ≤ v ∧ v ≤ (fieldDef 0).max :=
  claim7_invariant ("1,3".data) 0 [1, 3] (by decide) (by decide)

/-- Claim C8: name resolution is the identity outside the month and
day-of-week fields; on those fields a three-letter alphabetic match
whose lower-casing is a key of the table is replaced by the decimal
rendering of its value; in particular jan in the month field expands
as 1 does and mon-fri in the day-of-week field as 1-5 does. -/
theorem claim8_names :
    (∀ (t : List Char) (idx : Nat), idx ≠ 3 → idx ≠ 4 →
      replaceNames t idx = t) ∧
    (∀ (idx : Nat) (nm : List Char → Option Nat) (c1 c2 c3 : Char) (v : Nat),
      nameMapFor idx = some nm →
      isAlphaCh c1 = true → isAlphaCh c2 = true → isAlphaCh c3 = true →
      nm [toLow c1, toLow c2, toLow c3] = some v →
      replaceNames [c1, c2, c3] idx = natChars v) ∧
    parseFieldStr "jan" 3 = parseFieldStr "1" 3 ∧
    parseFieldStr "mon-fri" 4 = parseFieldStr "1-5" 4 := by
  refine ⟨?_, ?_, by decide, by decide⟩
  · intro t idx h3 h4
    rw [replaceNames, nameMapFor, if_neg h3, if_neg h4]
  · intro idx nm c1 c2 c3 v hnm h1 h2 h3 hv
    rw [replaceNames, hnm]
    show (if isAlphaCh c1 && isAlphaCh c2 && isAlphaCh c3 then
        (match nm [toLow c1, toLow c2, toLow c3] with
          | some v' => natChars v'
          | none => [c1, c2, c3]) ++ replaceNames3 nm []
      else c1 :: replaceNames3 nm [c2, c3]) = natChars v
    rw [if_pos (by simp [h1, h2, h3])]
    simp only [hv]
    show natChars v ++ ([] : List Char) = natChars v
    rw [List.append_nil]

/-- Witness for claim C8 at the mixed-case month name JaN. -/
theorem claim8_witness :
    nameMapFor 3 = some MONTH_NAMES ∧
    MONTH_NAMES [toLow 'J', toLow 'a', toLow 'N'] = some 1 ∧
    replaceNames ['J', 'a', 'N'] 3 = natChars 1 :=
  ⟨rfl, by decide,
    claim8_names.2.1 3 MONTH_NAMES 'J' 'a' 'N' 1 rfl (by decide) (by decide)
      (by decide) (by decide)⟩

/-- Claim C6: the expansion of a field depends only on the set of its
trimmed comma-separated tokens: two field texts whose token lists have
the same members expand, when both succeed, to the same result. -/
theorem claim6_token_sets :
    ∀ (s1 s2 : List Char) (idx : Nat) (r1 r2 : List Int),
    (∀ t, t ∈ fieldTokens s1 ↔ t ∈ fieldTokens s2) →
    parseFieldChars s1 idx = .ok r1 →
    parseFieldChars s2 idx = .ok r2 →
    r1 = r2 := by
  intro s1 s2 idx r1 r2 htok h1 h2
  obtain ⟨vals1, hexp1, rfl⟩ := parseFieldChars_ok h1
  obtain ⟨vals2, hexp2, rfl⟩ := parseFieldChars_ok h2
  apply uniqueSorted_eq_of_mem_iff
  intro v
  rw [expandTokens_ok_mem hexp1, expandTokens_ok_mem hexp2]
  exact exists_congr fun p => and_congr_left' (htok p)

/-- Witness for claim C6 at the minute fields 1,3 and 3,1,1, which
have the same token set with different order and multiplicity. -/
theorem claim6_witness : ([1, 3] : List Int) = [1, 3] :=
  claim6_token_sets ("1,3".data) ("3,1,1".data) 0 [1, 3] [1, 3]
    (fun t => by
      show t ∈ [['1'], ['3']] ↔ t ∈ [['3'], ['1'], ['1']]
      simp only [List.mem_cons, List.not_mem_nil, or_false]
      tauto)
    (by decide) (by decide)

end Cron
